import Mathlib

/-!
A shallow embedding of bencode.go

Go strings are byte sequences; they are modelled as `List Byte` with
`Byte = Fin 256`.  `bytes.Buffer.WriteString` is list append.  An index
expression `x[i]` panics when `i` is out of range, so `bencode_string`
returns an `Option` (`none` is the run-time panic) and every function that
calls it threads that `Option`.

The three standard-library functions the program calls
(`utf8.RuneCountInString`, `strconv.Itoa` and the integer-to-string
conversion `string(b)`) are modelled after the Go standard library.
-/

set_option maxRecDepth 8000

namespace Bencode

/-- A byte of a Go string. -/
abbrev Byte := Fin 256

/-- The bytes of an ASCII string literal of the program. -/
def ascii (s : String) : List Byte :=
  s.toList.map fun c => Fin.ofNat c.toNat

/-! ## `strconv.Itoa` -/

/-- The ASCII byte of the decimal digit `d` (`d < 10`). -/
def digitByte (d : Nat) : Byte := Fin.ofNat (48 + d)

/-- The digit loop of `strconv.formatBits` in base 10: the digits of `u` are
written in front of `a`, least significant first.  `fuel` bounds the number
of iterations; `formatBits_fuel` shows that any `fuel > u` gives the same
result. -/
def formatBits : Nat → Nat → List Byte → List Byte
  | 0, _, a => a
  | fuel + 1, u, a =>
    if u < 10 then digitByte u :: a
    else formatBits fuel (u / 10) (digitByte (u % 10) :: a)

/-- The decimal numeral of a natural number. -/
def formatNat (u : Nat) : List Byte := formatBits (u + 1) u []

/-- Go `strconv.Itoa`: the decimal numeral of `i`, with a leading `-` when
`i` is negative. -/
def Itoa (i : Int) : List Byte :=
  if i < 0 then (45 : Byte) :: formatNat i.natAbs else formatNat i.natAbs

/-! ## `utf8.RuneCountInString` -/

/-- Entry of the table `utf8.first` marking an invalid leading byte. -/
def xx : Nat := 0xF1

/-- The table `utf8.first`: information about the first byte of a UTF-8
sequence (low three bits: size; high four bits: index into `acceptRanges`). -/
def first (c : Nat) : Nat :=
  if c < 0x80 then 0xF0        -- as
  else if c < 0xC2 then xx
  else if c < 0xE0 then 0x02   -- s1
  else if c = 0xE0 then 0x13   -- s2
  else if c < 0xED then 0x03   -- s3
  else if c = 0xED then 0x23   -- s4
  else if c < 0xF0 then 0x03   -- s3
  else if c = 0xF0 then 0x34   -- s5
  else if c < 0xF4 then 0x04   -- s6
  else if c = 0xF4 then 0x44   -- s7
  else xx

/-- The table `utf8.acceptRanges`: the accepted range `(lo, hi)` of the second
byte of a sequence. -/
def acceptRanges (k : Nat) : Nat × Nat :=
  match k with
  | 0 => (0x80, 0xBF)
  | 1 => (0xA0, 0xBF)
  | 2 => (0x80, 0x9F)
  | 3 => (0x90, 0xBF)
  | 4 => (0x80, 0x8F)
  | _ => (0, 0)

/-- The byte `s[i]` as a number, for an index known to be in range by the
guards of `RuneCountInString` (0 otherwise, never used). -/
def byteAt (s : List Byte) (i : Nat) : Nat := (s.getD i 0).val

/-- One iteration of the loop of `utf8.RuneCountInString` at index `i < len(s)`:
the number of bytes the loop advances by. -/
def runeStep (s : List Byte) (i : Nat) : Nat :=
  let ns := s.length
  let c := byteAt s i
  if c < 0x80 then 1
  else
    let x := first c
    if x = xx then 1
    else
      let size := x % 8
      if i + size > ns then 1
      else
        let accept := acceptRanges (x / 16)
        let c1 := byteAt s (i + 1)
        if c1 < accept.1 ∨ accept.2 < c1 then 1
        else if size = 2 then 2
        else
          let c2 := byteAt s (i + 2)
          if c2 < 0x80 ∨ 0xBF < c2 then 1
          else if size = 3 then 3
          else
            let c3 := byteAt s (i + 3)
            if c3 < 0x80 ∨ 0xBF < c3 then 1
            else size

/-- The loop `for i := 0; i < ns; n++ { ... }` of `utf8.RuneCountInString`,
from index `i` with `n` runes counted so far.  `fuel` bounds the number of
iterations; `runeCountLoop_fuel` shows any `fuel ≥ ns - i` gives the same
result. -/
def runeCountLoop (s : List Byte) : Nat → Nat → Nat → Nat
  | 0, _, n => n
  | fuel + 1, i, n =>
    if i < s.length then runeCountLoop s fuel (i + runeStep s i) (n + 1)
    else n

/-- Go `utf8.RuneCountInString`: the number of runes in `s`, where each byte
that does not start a valid encoding counts as one rune of width 1. -/
def RuneCountInString (s : List Byte) : Nat := runeCountLoop s s.length 0 0

/-! ## `string(b)` for a byte `b` -/

/-- Go `utf8.EncodeRune` / the conversion `string(r)` of an integer: the
UTF-8 encoding of the code point `r`; surrogates and values above
`U+10FFFF` become `U+FFFD`. -/
def encoderune (r : Nat) : List Byte :=
  if r ≤ 0x7F then [Fin.ofNat r]
  else if r ≤ 0x7FF then [Fin.ofNat (0xC0 ||| (r >>> 6)), Fin.ofNat (0x80 ||| (r &&& 0x3F))]
  else if r > 0x10FFFF ∨ (0xD800 ≤ r ∧ r ≤ 0xDFFF) then [0xEF, 0xBF, 0xBD]
  else if r ≤ 0xFFFF then
    [Fin.ofNat (0xE0 ||| (r >>> 12)), Fin.ofNat (0x80 ||| ((r >>> 6) &&& 0x3F)),
      Fin.ofNat (0x80 ||| (r &&& 0x3F))]
  else
    [Fin.ofNat (0xF0 ||| (r >>> 18)), Fin.ofNat (0x80 ||| ((r >>> 12) &&& 0x3F)),
      Fin.ofNat (0x80 ||| ((r >>> 6) &&& 0x3F)), Fin.ofNat (0x80 ||| (r &&& 0x3F))]

/-! ## The program -/

/-- The loop `for i := 0; i < stringLength; i++ { buffer.WriteString(string(x[i])) }`
of `bencode_string`, with `k = stringLength - i` iterations left; `none` is
the panic of an out-of-range `x[i]`. -/
def writeLoop (x : List Byte) : Nat → Nat → List Byte → Option (List Byte)
  | 0, _, buffer => some buffer
  | k + 1, i, buffer =>
    match x[i]? with
    | none => none
    | some b => writeLoop x k (i + 1) (buffer ++ encoderune b.val)

/-- Go `bencode_string`. -/
def bencode_string (x : List Byte) : Option (List Byte) :=
  let stringLength := RuneCountInString x
  let buffer := Itoa stringLength ++ ascii ":"
  writeLoop x stringLength 0 buffer

/-- Go `bencode_int`. -/
def bencode_int (x : Int) : List Byte :=
  ascii "i" ++ ascii ":" ++ Itoa x ++ ascii "e"

/-- Go `bencode_list`. -/
def bencode_list (args : List (List Byte)) : List Byte :=
  let buffer := ascii "l"
  let buffer := args.foldl
    (fun buffer arg => buffer ++ Itoa (RuneCountInString arg) ++ ascii ":" ++ arg) buffer
  buffer ++ ascii "e"

/-- Go `BencodedDict`. -/
structure BencodedDict where
  strValue : List Byte
deriving DecidableEq

/-- The zero value `BencodedDict{}`. -/
def BencodedDict.empty : BencodedDict := ⟨[]⟩

/-- Go `bencoded_dict_string`. -/
def BencodedDict.bencoded_dict_string (bdict : BencodedDict) : List Byte :=
  ascii "d" ++ bdict.strValue ++ ascii "e"

/-- Go `add_int`. -/
def BencodedDict.add_int (bdict : BencodedDict) (key : List Byte) (value : Int) :
    Option BencodedDict :=
  (bencode_string key).map fun k => ⟨bdict.strValue ++ (k ++ bencode_int value)⟩

/-- Go `add_string`. -/
def BencodedDict.add_string (bdict : BencodedDict) (key value : List Byte) :
    Option BencodedDict :=
  (bencode_string key).bind fun k =>
    (bencode_string value).map fun v => ⟨bdict.strValue ++ (k ++ v)⟩

/-- Go `add_list`. -/
def BencodedDict.add_list (bdict : BencodedDict) (key : List Byte) (value : List (List Byte)) :
    Option BencodedDict :=
  (bencode_string key).map fun k => ⟨bdict.strValue ++ (k ++ bencode_list value)⟩

/-- Go `add_dict`. -/
def BencodedDict.add_dict (bdict : BencodedDict) (key : List Byte) (value : BencodedDict) :
    Option BencodedDict :=
  (bencode_string key).map fun k => ⟨bdict.strValue ++ (k ++ value.strValue)⟩

/-! ## Specification-side definitions -/

/-- Every byte of `s` is ASCII (`< 0x80`). -/
def IsAscii (s : List Byte) : Prop := ∀ b ∈ s, b.val < 0x80

instance (s : List Byte) : Decidable (IsAscii s) := by
  unfold IsAscii; infer_instance

/-- The byte is one of the ASCII digits `0`..`9`. -/
def isDigit (b : Byte) : Prop := 48 ≤ b.val ∧ b.val ≤ 57

/-- The number a run of decimal digit bytes denotes. -/
def decVal (l : List Byte) : Nat := l.foldl (fun v b => 10 * v + (b.val - 48)) 0

/-- The canonical bencoding of a byte string, in the words of the format:
the decimal byte length, a colon, the bytes verbatim. -/
def canonical_string (s : List Byte) : List Byte :=
  Itoa s.length ++ ascii ":" ++ s

/-- The canonical bencoding of a list of byte strings: `l`, each element
canonically encoded in order, `e`. -/
def canonical_list (args : List (List Byte)) : List Byte :=
  ascii "l" ++ args.flatMap canonical_string ++ ascii "e"

/-- The bytes of an encoded string in front of its first colon. -/
def lengthPrefix (out : List Byte) : List Byte := out.takeWhile fun b => b != 58

/-- The calls `add_string(k1, v1); ...; add_string(kn, vn)` in sequence. -/
def add_strings (bdict : BencodedDict) (entries : List (List Byte × List Byte)) :
    Option BencodedDict :=
  entries.foldlM (fun d e => d.add_string e.1 e.2) bdict

/-- A call of one of the four `add_*` methods of `BencodedDict`, with its
arguments. -/
inductive Call where
  | add_int (key : List Byte) (value : Int)
  | add_string (key value : List Byte)
  | add_list (key : List Byte) (value : List (List Byte))
  | add_dict (key : List Byte) (value : BencodedDict)
deriving DecidableEq

/-- The method call `c` on the dictionary `bdict`. -/
def BencodedDict.call (bdict : BencodedDict) : Call → Option BencodedDict
  | .add_int key value => bdict.add_int key value
  | .add_string key value => bdict.add_string key value
  | .add_list key value => bdict.add_list key value
  | .add_dict key value => bdict.add_dict key value

/-- A sequence of `add_*` calls on `bdict`, in order. -/
def add_calls (bdict : BencodedDict) (calls : List Call) : Option BencodedDict :=
  calls.foldlM (fun d c => d.call c) bdict

/-- What one call contributes to the content: `bencode_string(key)` followed
by `bencode_int(value)`, `bencode_string(value)`, `bencode_list(value)` or the
nested dictionary's `strValue`. -/
def contribution : Call → Option (List Byte)
  | .add_int key value => (bencode_string key).map fun k => k ++ bencode_int value
  | .add_string key value =>
    (bencode_string key).bind fun k => (bencode_string value).map fun v => k ++ v
  | .add_list key value => (bencode_string key).map fun k => k ++ bencode_list value
  | .add_dict key value => (bencode_string key).map fun k => k ++ value.strValue

/-- The digits of a numeral: the numeral without one leading `-`. -/
def numeralDigits (t : List Byte) : List Byte :=
  if t.head? = some 45 then t.tail else t

/-- The integer a decimal numeral with an optional leading `-` denotes. -/
def numeralVal (t : List Byte) : Int :=
  if t.head? = some 45 then -(decVal t.tail : Int) else (decVal t : Int)

/-- The byte string `t` is the canonical decimal numeral of `n`: a leading `-`
exactly when `n` is negative, then a non-empty run of digits that starts with
`0` only when the numeral is `0` itself; it is not `-0`, and it denotes `n`. -/
structure CanonicalNumeral (t : List Byte) (n : Int) : Prop where
  sign : t.head? = some 45 ↔ n < 0
  digits_ne_nil : numeralDigits t ≠ []
  digits : ∀ b ∈ numeralDigits t, isDigit b
  leading_zero : (numeralDigits t).head? = some 48 → n = 0 ∧ t = [48]
  not_minus_zero : t ≠ [45, 48]
  value : numeralVal t = n

/-- The text of an encoded integer between its leading marker `i` and its
final `e`: the output without its first and its last byte. -/
def intBody (out : List Byte) : List Byte := (out.drop 1).dropLast

/-- What `bencode_list` writes for one element: the decimal rune count, a
colon, the element's bytes. -/
def listElem (arg : List Byte) : List Byte :=
  Itoa (RuneCountInString arg) ++ ascii ":" ++ arg

/-- The concatenation of `bencode_string(a)` for each `a` of `args`, in order. -/
def concat_bencode_strings : List (List Byte) → Option (List Byte)
  | [] => some []
  | a :: as =>
    (bencode_string a).bind fun s => (concat_bencode_strings as).map fun r => s ++ r

/-- A list encoded element by element with `bencode_string`: `l`, the
concatenation of `bencode_string(a)` for each element, `e`. -/
def list_of_bencoded_strings (args : List (List Byte)) : Option (List Byte) :=
  (concat_bencode_strings args).map fun r => ascii "l" ++ r ++ ascii "e"

/-! ## `strconv.Itoa`: lemmas -/

theorem digitByte_val {d : Nat} (h : d < 10) : (digitByte d).val = 48 + d := by
  simp only [digitByte, Fin.ofNat, Nat.reduceAdd]
  omega

theorem formatBits_eq : ∀ (u fuel : Nat) (a : List Byte), u < fuel →
    formatBits fuel u a = formatNat u ++ a := by
  intro u
  induction u using Nat.strong_induction_on with
  | _ u ih =>
    intro fuel a hf
    obtain ⟨f, rfl⟩ : ∃ f, fuel = f + 1 := ⟨fuel - 1, by omega⟩
    by_cases hu : u < 10
    · simp [formatNat, formatBits, hu]
    · have hlt : u / 10 < u := by omega
      have e1 : formatBits (f + 1) u a = formatBits f (u / 10) (digitByte (u % 10) :: a) := by
        simp [formatBits, hu]
      have e2 : formatNat u = formatBits u (u / 10) [digitByte (u % 10)] := by
        simp [formatNat, formatBits, hu]
      rw [e1, e2, ih (u / 10) hlt f _ (by omega), ih (u / 10) hlt u _ hlt]
      simp

/-- Any fuel above `u` gives the same numeral: the digit loop always ends by
its own test. -/
theorem formatBits_fuel (u f1 f2 : Nat) (a : List Byte) (h1 : u < f1) (h2 : u < f2) :
    formatBits f1 u a = formatBits f2 u a := by
  rw [formatBits_eq u f1 a h1, formatBits_eq u f2 a h2]

theorem formatNat_lt {u : Nat} (h : u < 10) : formatNat u = [digitByte u] := by
  simp [formatNat, formatBits, h]

theorem formatNat_ge {u : Nat} (h : 10 ≤ u) :
    formatNat u = formatNat (u / 10) ++ [digitByte (u % 10)] := by
  have hu : ¬ u < 10 := by omega
  have e2 : formatNat u = formatBits u (u / 10) [digitByte (u % 10)] := by
    simp [formatNat, formatBits, hu]
  rw [e2, formatBits_eq _ _ _ (by omega)]

theorem formatNat_digits (u : Nat) : ∀ b ∈ formatNat u, isDigit b := by
  induction u using Nat.strong_induction_on with
  | _ u ih =>
    by_cases hu : u < 10
    · intro b hb
      rw [formatNat_lt hu] at hb
      simp only [List.mem_singleton] at hb
      subst hb
      simp only [isDigit, digitByte_val hu]
      omega
    · intro b hb
      rw [formatNat_ge (by omega)] at hb
      rcases List.mem_append.1 hb with h | h
      · exact ih (u / 10) (by omega) b h
      · simp only [List.mem_singleton] at h
        subst h
        have : u % 10 < 10 := Nat.mod_lt _ (by decide)
        simp only [isDigit, digitByte_val this]
        omega

theorem formatNat_ne_nil (u : Nat) : formatNat u ≠ [] := by
  by_cases hu : u < 10
  · simp [formatNat_lt hu]
  · simp [formatNat_ge (Nat.le_of_not_lt hu)]

theorem decVal_append_singleton (l : List Byte) (b : Byte) :
    decVal (l ++ [b]) = 10 * decVal l + (b.val - 48) := by
  simp [decVal, List.foldl_append]

/-- The numeral of `u` denotes `u`. -/
theorem decVal_formatNat (u : Nat) : decVal (formatNat u) = u := by
  induction u using Nat.strong_induction_on with
  | _ u ih =>
    by_cases hu : u < 10
    · rw [formatNat_lt hu]
      simp [decVal, digitByte_val hu]
    · have hm : u % 10 < 10 := Nat.mod_lt _ (by decide)
      rw [formatNat_ge (by omega), decVal_append_singleton, ih (u / 10) (by omega),
        digitByte_val hm]
      omega

theorem formatNat_injective {m n : Nat} (h : formatNat m = formatNat n) : m = n := by
  rw [← decVal_formatNat m, ← decVal_formatNat n, h]

theorem Itoa_natCast (n : Nat) : Itoa (n : Int) = formatNat n := by
  simp [Itoa]

theorem lengthPrefix_digits (l r : List Byte) (h : ∀ b ∈ l, isDigit b) :
    lengthPrefix (l ++ ascii ":" ++ r) = l := by
  induction l with
  | nil => simp [lengthPrefix, ascii]; decide
  | cons b l ih =>
    have hb : (b != 58) = true := by
      have := h b (List.mem_cons_self _ _)
      simp only [bne_iff_ne, ne_eq]
      intro hb
      subst hb
      exact absurd this.2 (by decide)
    have := ih (fun c hc => h c (List.mem_cons_of_mem _ hc))
    simp only [lengthPrefix, List.cons_append, List.takeWhile_cons, hb, if_true] at this ⊢
    rw [this]

/-! ## `utf8.RuneCountInString`: lemmas -/

theorem first_mod_pos (c : Nat) (hc : ¬ c < 0x80) : 1 ≤ first c % 8 := by
  unfold first xx
  split_ifs <;> decide

/-- Every iteration advances by at least one byte. -/
theorem runeStep_pos (s : List Byte) (i : Nat) : 1 ≤ runeStep s i := by
  by_cases hc : byteAt s i < 0x80
  · simp [runeStep, hc]
  · have := first_mod_pos (byteAt s i) hc
    simp only [runeStep]
    split_ifs <;> omega

/-- The rune count never exceeds the number of bytes still to be read. -/
theorem runeCountLoop_le (s : List Byte) :
    ∀ fuel i n, runeCountLoop s fuel i n ≤ n + (s.length - i) := by
  intro fuel
  induction fuel with
  | zero => intro i n; simp [runeCountLoop]
  | succ fuel ih =>
    intro i n
    simp only [runeCountLoop]
    split_ifs with h
    · have h1 := ih (i + runeStep s i) (n + 1)
      have h2 := runeStep_pos s i
      omega
    · omega

/-- Any fuel of at least `ns - i` gives the same count: the loop always ends
by its own test `i < ns`. -/
theorem runeCountLoop_fuel (s : List Byte) :
    ∀ f1 f2 i n, s.length - i ≤ f1 → s.length - i ≤ f2 →
      runeCountLoop s f1 i n = runeCountLoop s f2 i n := by
  intro f1
  induction f1 with
  | zero =>
    intro f2 i n h1 _
    cases f2 with
    | zero => rfl
    | succ f2 =>
      have : ¬ i < s.length := by omega
      simp [runeCountLoop, this]
  | succ f1 ih =>
    intro f2 i n h1 h2
    cases f2 with
    | zero =>
      have : ¬ i < s.length := by omega
      simp [runeCountLoop, this]
    | succ f2 =>
      simp only [runeCountLoop]
      split_ifs with h
      · have := runeStep_pos s i
        exact ih f2 _ _ (by omega) (by omega)
      · rfl

theorem RuneCountInString_le (s : List Byte) : RuneCountInString s ≤ s.length := by
  have := runeCountLoop_le s s.length 0 0
  simpa [RuneCountInString] using this

theorem runeStep_ascii (s : List Byte) (hs : IsAscii s) (i : Nat) (hi : i < s.length) :
    runeStep s i = 1 := by
  have hb : byteAt s i < 0x80 := by
    have hmem : s.getD i 0 ∈ s := by
      rw [List.getD_eq_getElem s 0 hi]
      exact List.getElem_mem hi
    exact hs _ hmem
  simp [runeStep, hb]

theorem runeCountLoop_ascii (s : List Byte) (hs : IsAscii s) :
    ∀ fuel i n, s.length - i ≤ fuel → runeCountLoop s fuel i n = n + (s.length - i) := by
  intro fuel
  induction fuel with
  | zero => intro i n h; simp only [runeCountLoop]; omega
  | succ fuel ih =>
    intro i n h
    simp only [runeCountLoop]
    split_ifs with hi
    · rw [runeStep_ascii s hs i hi, ih (i + 1) (n + 1) (by omega)]
      omega
    · omega

/-- On an ASCII string the rune count is the byte length. -/
theorem RuneCountInString_ascii (s : List Byte) (hs : IsAscii s) :
    RuneCountInString s = s.length := by
  simp [RuneCountInString, runeCountLoop_ascii s hs s.length 0 0 (by omega)]

/-! ## `bencode_string`: lemmas -/

theorem encoderune_ascii (b : Byte) (hb : b.val < 0x80) : encoderune b.val = [b] := by
  have h : b.val ≤ 0x7F := by omega
  simp only [encoderune, h, if_true, List.cons.injEq, and_true]
  apply Fin.ext
  simp only [Fin.ofNat, Nat.reduceAdd]
  omega

/-- The write loop never indexes out of range when its `k` iterations from
index `i` stay within the string; it appends `string(x[j])` for `i ≤ j < i + k`. -/
theorem writeLoop_eq (x : List Byte) :
    ∀ k i buffer, i + k ≤ x.length →
      writeLoop x k i buffer =
        some (buffer ++ ((x.drop i).take k).flatMap fun b => encoderune b.val) := by
  intro k
  induction k with
  | zero => intro i buffer _; simp [writeLoop]
  | succ k ih =>
    intro i buffer h
    have hi : i < x.length := by omega
    simp only [writeLoop, List.getElem?_eq_getElem hi]
    rw [ih (i + 1) _ (by omega), List.drop_eq_getElem_cons hi]
    simp only [List.take_succ_cons, List.flatMap_cons, List.append_assoc]

/-- What `bencode_string` returns: the decimal rune count, a colon, and the
UTF-8 encoding of each of the first rune-count bytes taken as a code point. -/
theorem bencode_string_eq (x : List Byte) :
    bencode_string x =
      some (formatNat (RuneCountInString x) ++ ascii ":" ++
        (x.take (RuneCountInString x)).flatMap fun b => encoderune b.val) := by
  have h := writeLoop_eq x (RuneCountInString x) 0
    (Itoa (RuneCountInString x) ++ ascii ":") (by have := RuneCountInString_le x; omega)
  simpa [bencode_string, Itoa_natCast] using h

theorem flatMap_encoderune_ascii (s : List Byte) (hs : IsAscii s) :
    (s.flatMap fun b => encoderune b.val) = s := by
  induction s with
  | nil => rfl
  | cons b s ih =>
    have hb := hs b (List.mem_cons_self _ _)
    have := ih (fun c hc => hs c (List.mem_cons_of_mem _ hc))
    simp [List.flatMap_cons, encoderune_ascii b hb, this]

/-- On an ASCII string `bencode_string` is the canonical encoding. -/
theorem bencode_string_ascii (x : List Byte) (hx : IsAscii x) :
    bencode_string x = some (canonical_string x) := by
  rw [bencode_string_eq, RuneCountInString_ascii x hx, List.take_length,
    flatMap_encoderune_ascii x hx, canonical_string, Itoa_natCast]

theorem bencode_string_isSome (x : List Byte) : ∃ out, bencode_string x = some out :=
  ⟨_, bencode_string_eq x⟩

/-- The length prefix `bencode_string` writes is the numeral of the rune count. -/
theorem lengthPrefix_bencode_string (x out : List Byte) (h : bencode_string x = some out) :
    lengthPrefix out = formatNat (RuneCountInString x) := by
  rw [bencode_string_eq] at h
  cases h
  exact lengthPrefix_digits _ _ (formatNat_digits _)

theorem encoderune_byte_length (b : Byte) : (encoderune b.val).length ≤ 2 := by
  have hb := b.isLt
  unfold encoderune
  split_ifs <;> first | omega | simp

theorem flatMap_encoderune_length (l : List Byte) :
    (l.flatMap fun b => encoderune b.val).length ≤ 2 * l.length := by
  induction l with
  | nil => simp
  | cons b l ih =>
    have := encoderune_byte_length b
    simp only [List.flatMap_cons, List.length_append, List.length_cons]
    omega

/-! ## `BencodedDict`: lemmas -/

theorem add_string_eq (d : BencodedDict) (k v ek ev : List Byte)
    (hk : bencode_string k = some ek) (hv : bencode_string v = some ev) :
    d.add_string k v = some ⟨d.strValue ++ (ek ++ ev)⟩ := by
  simp [BencodedDict.add_string, hk, hv]

theorem add_strings_nil (d : BencodedDict) : add_strings d [] = some d := rfl

theorem add_strings_cons (d : BencodedDict) (e : List Byte × List Byte)
    (es : List (List Byte × List Byte)) :
    add_strings d (e :: es) = (d.add_string e.1 e.2).bind fun d1 => add_strings d1 es := by
  simp [add_strings, List.foldlM_cons]

theorem add_strings_ascii (entries : List (List Byte × List Byte))
    (hk : ∀ e ∈ entries, IsAscii e.1) (hv : ∀ e ∈ entries, IsAscii e.2) :
    ∀ d : BencodedDict, add_strings d entries =
      some ⟨d.strValue ++
        entries.flatMap fun e => canonical_string e.1 ++ canonical_string e.2⟩ := by
  induction entries with
  | nil => intro d; simp [add_strings_nil]
  | cons e es ih =>
    intro d
    have h1 := bencode_string_ascii e.1 (hk e (List.mem_cons_self _ _))
    have h2 := bencode_string_ascii e.2 (hv e (List.mem_cons_self _ _))
    rw [add_strings_cons, add_string_eq d _ _ _ _ h1 h2, Option.some_bind,
      ih (fun c hc => hk c (List.mem_cons_of_mem _ hc))
        (fun c hc => hv c (List.mem_cons_of_mem _ hc))]
    simp [List.flatMap_cons, List.append_assoc]

/-! ## The claims -/

/-- C1 (defect in the code): `bencode_string` is not the canonical encoding
on every byte string.  On the two bytes `C3 A9` (the UTF-8 text "é") it
returns `1:` followed by `C3 83`, where the decimal byte length, a colon
and the bytes verbatim are `2:` followed by `C3 A9`; on the ASCII examples
"spam" and "foobar" it does return `4:spam` and `6:foobar`. -/
theorem bencode_string_multibyte_not_canonical :
    bencode_string [0xC3, 0xA9] = some (ascii "1:" ++ [0xC3, 0x83]) ∧
    canonical_string [0xC3, 0xA9] = ascii "2:" ++ [0xC3, 0xA9] ∧
    bencode_string [0xC3, 0xA9] ≠ some (canonical_string [0xC3, 0xA9]) ∧
    bencode_string (ascii "spam") = some (ascii "4:spam") ∧
    bencode_string (ascii "foobar") = some (ascii "6:foobar") := by
  decide

/-- C2 (defect in the code): `bencode_int` writes a colon between the `i`
marker and the digits: `bencode_int(3)` is `i:3e`, `bencode_int(0)` is `i:0e`
and `bencode_int(-3)` is `i:-3e`, none of which is `i`, the decimal numeral,
`e`. -/
theorem bencode_int_stray_colon :
    bencode_int 3 = ascii "i:3e" ∧ bencode_int 3 ≠ ascii "i" ++ Itoa 3 ++ ascii "e" ∧
    bencode_int 0 = ascii "i:0e" ∧ bencode_int 0 ≠ ascii "i" ++ Itoa 0 ++ ascii "e" ∧
    bencode_int (-3) = ascii "i:-3e" ∧
    bencode_int (-3) ≠ ascii "i" ++ Itoa (-3) ++ ascii "e" := by
  decide

/-- C3 (defect in the code): `bencode_list` prefixes each element with its
rune count, not its byte length: for the one-element list holding the two
bytes `C3 A9` it returns `l1:` `C3 A9` `e`, where the claim has
`l2:` `C3 A9` `e`; on the ASCII examples it returns `l4:spam4:eggse` and `le`. -/
theorem bencode_list_multibyte_not_canonical :
    bencode_list [[0xC3, 0xA9]] = ascii "l1:" ++ [0xC3, 0xA9] ++ ascii "e" ∧
    canonical_list [[0xC3, 0xA9]] = ascii "l2:" ++ [0xC3, 0xA9] ++ ascii "e" ∧
    bencode_list [[0xC3, 0xA9]] ≠ canonical_list [[0xC3, 0xA9]] ∧
    bencode_list [ascii "spam", ascii "eggs"] = ascii "l4:spam4:eggse" ∧
    bencode_list [] = ascii "le" := by
  decide

/-- C5 (defect in the code): the number `bencode_string` writes before the
first colon is the rune count, not the byte count: for the six bytes
`C3 A9 C3 A9 C3 A9` (three characters) the prefix is `3`, not `6`. -/
theorem bencode_string_prefix_counts_runes :
    List.length ([0xC3, 0xA9, 0xC3, 0xA9, 0xC3, 0xA9] : List Byte) = 6 ∧
    RuneCountInString [0xC3, 0xA9, 0xC3, 0xA9, 0xC3, 0xA9] = 3 ∧
    (bencode_string [0xC3, 0xA9, 0xC3, 0xA9, 0xC3, 0xA9]).map lengthPrefix =
      some (ascii "3") ∧
    (bencode_string [0xC3, 0xA9, 0xC3, 0xA9, 0xC3, 0xA9]).map lengthPrefix ≠
      some (Itoa 6) := by
  decide

/-- C6 (defect in the code): `bencode_string` is not injective, so no decoder
recovers every string: the distinct two-byte strings `C3 A9` ("é") and
`C3 AA` ("ê") both encode to `1:` `C3 83`. -/
theorem bencode_string_not_injective :
    bencode_string [0xC3, 0xA9] = bencode_string [0xC3, 0xAA] ∧
    ([0xC3, 0xA9] : List Byte) ≠ [0xC3, 0xAA] ∧
    ¬ Function.Injective bencode_string := by
  refine ⟨by decide, by decide, fun h => ?_⟩
  have : ([0xC3, 0xA9] : List Byte) = [0xC3, 0xAA] := h (by decide)
  exact absurd this (by decide)

/-- C7 (defect in the code): `add_dict` appends the nested dictionary's
`strValue`, without the `d` and `e` that `bencoded_dict_string` puts around
it: adding under key "a" the dictionary holding "b" -> "c" to an empty
dictionary leaves the content `1:a1:b1:c`, not `1:ad1:b1:ce`. -/
theorem add_dict_drops_delimiters :
    BencodedDict.empty.add_string (ascii "b") (ascii "c") = some ⟨ascii "1:b1:c"⟩ ∧
    BencodedDict.bencoded_dict_string ⟨ascii "1:b1:c"⟩ = ascii "d1:b1:ce" ∧
    BencodedDict.empty.add_dict (ascii "a") ⟨ascii "1:b1:c"⟩ = some ⟨ascii "1:a1:b1:c"⟩ ∧
    BencodedDict.empty.add_dict (ascii "a") ⟨ascii "1:b1:c"⟩ ≠
      (bencode_string (ascii "a")).map fun k =>
        ⟨BencodedDict.empty.strValue ++
          (k ++ BencodedDict.bencoded_dict_string ⟨ascii "1:b1:c"⟩)⟩ := by
  decide

/-- C4 (defect in the code): keys are not sorted on serialization, although
the doc comment of `BencodedDict` says they appear in sorted order.  With
"cow" < "spam", adding "spam" before "cow" yields
`d4:spam4:eggs3:cow3:mooe`, with the key "spam" first, which differs from
the `d3:cow3:moo4:spam4:eggse` obtained by adding "cow" first. -/
theorem dict_keys_not_sorted :
    ascii "cow" < ascii "spam" ∧
    (add_strings BencodedDict.empty
        [(ascii "spam", ascii "eggs"), (ascii "cow", ascii "moo")]).map
      BencodedDict.bencoded_dict_string = some (ascii "d4:spam4:eggs3:cow3:mooe") ∧
    (add_strings BencodedDict.empty
        [(ascii "cow", ascii "moo"), (ascii "spam", ascii "eggs")]).map
      BencodedDict.bencoded_dict_string = some (ascii "d3:cow3:moo4:spam4:eggse") ∧
    (add_strings BencodedDict.empty
        [(ascii "spam", ascii "eggs"), (ascii "cow", ascii "moo")]).map
      BencodedDict.bencoded_dict_string ≠
    (add_strings BencodedDict.empty
        [(ascii "cow", ascii "moo"), (ascii "spam", ascii "eggs")]).map
      BencodedDict.bencoded_dict_string := by
  decide

/-- C8 (counterexample): a key added twice is serialized twice.  After
`add_string("a", "x")` and `add_string("a", "y")` on an empty dictionary the
serialization is `d1:a1:x1:a1:ye`, and no value `v` makes that the
serialization of the one-entry dictionary built by `add_string("a", v)`. -/
theorem dict_duplicate_key_serialized_twice :
    (add_strings BencodedDict.empty
        [(ascii "a", ascii "x"), (ascii "a", ascii "y")]).map
      BencodedDict.bencoded_dict_string = some (ascii "d1:a1:x1:a1:ye") ∧
    ¬ ∃ v, (add_strings BencodedDict.empty [(ascii "a", v)]).map
      BencodedDict.bencoded_dict_string = some (ascii "d1:a1:x1:a1:ye") := by
  refine ⟨by decide, ?_⟩
  rintro ⟨v, hv⟩
  have hev := bencode_string_eq v
  have ha : bencode_string (ascii "a") = some (ascii "1:a") := by decide
  rw [add_strings_cons, add_string_eq _ _ _ _ _ ha hev] at hv
  simp only [Option.some_bind, add_strings_nil, Option.map_some', Option.some.injEq,
    BencodedDict.bencoded_dict_string, BencodedDict.empty, List.nil_append] at hv
  have hsplit : ascii "d1:a1:x1:a1:ye" =
      ascii "d" ++ (ascii "1:a" ++ ascii "1:x1:a1:y") ++ ascii "e" := by decide
  rw [hsplit] at hv
  have hbody := List.append_cancel_left (List.append_cancel_left (List.append_cancel_right hv))
  have hpre := lengthPrefix_bencode_string v _ hev
  rw [hbody] at hpre
  have hone : RuneCountInString v = 1 := by
    apply formatNat_injective
    rw [← hpre]
    decide
  have hlen := congrArg List.length hbody
  have hfm := flatMap_encoderune_length (v.take (RuneCountInString v))
  have htake : (v.take (RuneCountInString v)).length ≤ 1 := by
    rw [List.length_take, hone]
    omega
  have h9 : (ascii "1:x1:a1:y").length = 9 := by decide
  have h1 : (formatNat 1).length = 1 := by decide
  have hc : (ascii ":").length = 1 := by decide
  rw [hone] at hlen hfm
  simp only [List.length_append, h9, h1, hc] at hlen
  rw [hone] at htake
  omega

/-- C8 (amended): `add_string` never replaces an entry.  For every key `k`
and values `v1`, `v2`, after `add_string(k, v1)` followed by
`add_string(k, v2)` on an empty dictionary the serialization is `d`, the
encoded key, the encoded `v1`, the encoded key again, the encoded `v2`, `e`:
both entries, in call order. -/
theorem dict_keeps_both_entries_of_a_key (k v1 v2 : List Byte) :
    ∃ ek ev1 ev2,
      bencode_string k = some ek ∧ bencode_string v1 = some ev1 ∧
      bencode_string v2 = some ev2 ∧
      (add_strings BencodedDict.empty [(k, v1), (k, v2)]).map
          BencodedDict.bencoded_dict_string =
        some (ascii "d" ++ (ek ++ ev1 ++ (ek ++ ev2)) ++ ascii "e") := by
  obtain ⟨ek, hk⟩ := bencode_string_isSome k
  obtain ⟨ev1, hv1⟩ := bencode_string_isSome v1
  obtain ⟨ev2, hv2⟩ := bencode_string_isSome v2
  refine ⟨ek, ev1, ev2, hk, hv1, hv2, ?_⟩
  simp [add_strings_cons, add_strings_nil, add_string_eq _ _ _ _ _ hk hv1,
    add_string_eq _ _ _ _ _ hk hv2, BencodedDict.bencoded_dict_string,
    BencodedDict.empty]

/-- C9: for every sequence of entries whose keys and values are ASCII and
whose keys are strictly ascending, `add_string` on each entry in turn from an
empty dictionary succeeds, and `bencoded_dict_string` then returns `d`, for
each entry in order the decimal length of the key, a colon, the key, the
decimal length of the value, a colon, the value, and finally `e`.  (The
proof does not use the ordering of the keys.) -/
theorem dict_of_ascii_entries (entries : List (List Byte × List Byte))
    (hk : ∀ e ∈ entries, IsAscii e.1) (hv : ∀ e ∈ entries, IsAscii e.2)
    (_hsorted : (entries.map Prod.fst).Pairwise (· < ·)) :
    (add_strings BencodedDict.empty entries).map BencodedDict.bencoded_dict_string =
      some (ascii "d" ++
        (entries.flatMap fun e =>
          (Itoa e.1.length ++ ascii ":" ++ e.1) ++ (Itoa e.2.length ++ ascii ":" ++ e.2)) ++
        ascii "e") := by
  rw [add_strings_ascii entries hk hv]
  simp [BencodedDict.bencoded_dict_string, BencodedDict.empty, canonical_string]

/-- C9 at the entries "cow" -> "moo", "spam" -> "eggs": the result is
`d3:cow3:moo4:spam4:eggse`. -/
theorem dict_of_ascii_entries_witness :
    (∀ e ∈ [(ascii "cow", ascii "moo"), (ascii "spam", ascii "eggs")], IsAscii e.1) ∧
    (∀ e ∈ [(ascii "cow", ascii "moo"), (ascii "spam", ascii "eggs")], IsAscii e.2) ∧
    (([(ascii "cow", ascii "moo"), (ascii "spam", ascii "eggs")].map Prod.fst).Pairwise
      (· < ·)) ∧
    (add_strings BencodedDict.empty
        [(ascii "cow", ascii "moo"), (ascii "spam", ascii "eggs")]).map
      BencodedDict.bencoded_dict_string = some (ascii "d3:cow3:moo4:spam4:eggse") :=
  ⟨by decide, by decide, by decide,
    (dict_of_ascii_entries [(ascii "cow", ascii "moo"), (ascii "spam", ascii "eggs")]
      (by decide) (by decide) (by decide)).trans (by decide)⟩

/-- C10: `bencode_string` is total.  For every byte string `x` the rune count
is at most the byte length, so every index `i < RuneCountInString(x)` of the
loop is in range, and `bencode_string(x)` returns a result. -/
theorem bencode_string_total (x : List Byte) :
    RuneCountInString x ≤ x.length ∧ (bencode_string x).isSome = true := by
  refine ⟨RuneCountInString_le x, ?_⟩
  rw [bencode_string_eq]
  rfl

/-! ## Lemmas for the integer and list encoders -/

theorem formatNat_head_zero (u : Nat) (h : (formatNat u).head? = some 48) : u = 0 := by
  induction u using Nat.strong_induction_on with
  | _ u ih =>
    by_cases hu : u < 10
    · rw [formatNat_lt hu] at h
      simp only [List.head?_cons, Option.some.injEq] at h
      have := congrArg Fin.val h
      rw [digitByte_val hu] at this
      have h48 : ((48 : Byte) : Nat) = 48 := rfl
      omega
    · rw [formatNat_ge (by omega), List.head?_append_of_ne_nil _ (formatNat_ne_nil _)] at h
      have := ih (u / 10) (by omega) h
      omega

theorem formatNat_head_digit (u : Nat) (b : Byte) (h : (formatNat u).head? = some b) :
    isDigit b :=
  formatNat_digits u b (List.mem_of_mem_head? h)

theorem formatNat_head_ne_minus (u : Nat) : (formatNat u).head? ≠ some 45 := by
  intro h
  exact absurd (formatNat_head_digit u 45 h).1 (by decide)

theorem Itoa_neg {n : Int} (h : n < 0) : Itoa n = 45 :: formatNat n.natAbs := by
  simp [Itoa, h]

theorem Itoa_nonneg {n : Int} (h : ¬ n < 0) : Itoa n = formatNat n.natAbs := by
  simp [Itoa, h]

/-- The numeral `strconv.Itoa` returns is canonical and denotes its argument. -/
theorem Itoa_canonical (n : Int) : CanonicalNumeral (Itoa n) n := by
  by_cases hn : n < 0
  · have hd : numeralDigits (Itoa n) = formatNat n.natAbs := by
      simp [numeralDigits, Itoa_neg hn]
    refine ⟨?_, ?_, ?_, ?_, ?_, ?_⟩
    · simp [Itoa_neg hn, hn]
    · rw [hd]; exact formatNat_ne_nil _
    · rw [hd]; exact formatNat_digits _
    · rw [hd]
      intro h
      have := formatNat_head_zero _ h
      omega
    · rw [Itoa_neg hn]
      intro h
      have h0 : formatNat n.natAbs = formatNat 0 := by
        have := List.tail_eq_of_cons_eq h
        rw [this]; decide
      have := formatNat_injective h0
      omega
    · simp only [numeralVal, Itoa_neg hn, List.head?_cons, if_true, List.tail_cons,
        decVal_formatNat]
      omega
  · have hh : (Itoa n).head? ≠ some 45 := by
      rw [Itoa_nonneg hn]; exact formatNat_head_ne_minus _
    have hd : numeralDigits (Itoa n) = formatNat n.natAbs := by
      simp only [numeralDigits, hh, if_false]
      exact Itoa_nonneg hn
    refine ⟨?_, ?_, ?_, ?_, ?_, ?_⟩
    · exact ⟨fun h => absurd h hh, fun h => absurd h hn⟩
    · rw [hd]; exact formatNat_ne_nil _
    · rw [hd]; exact formatNat_digits _
    · rw [hd]
      intro h
      have h0 := formatNat_head_zero _ h
      have hn0 : n = 0 := by omega
      refine ⟨hn0, ?_⟩
      subst hn0
      decide
    · intro h
      apply hh
      rw [h]
      rfl
    · simp only [numeralVal, hh, if_false]
      rw [Itoa_nonneg hn, decVal_formatNat]
      omega

theorem bencode_int_eq (n : Int) : bencode_int n = ascii "i:" ++ Itoa n ++ ascii "e" := by
  have h : ascii "i" ++ ascii ":" = ascii "i:" := by decide
  simp only [bencode_int, h]

theorem foldl_listElem (args : List (List Byte)) :
    ∀ buffer : List Byte,
      args.foldl (fun buffer arg => buffer ++ Itoa (RuneCountInString arg) ++ ascii ":" ++ arg)
        buffer = buffer ++ args.flatMap listElem := by
  induction args with
  | nil => intro buffer; simp
  | cons a as ih =>
    intro buffer
    rw [List.foldl_cons, ih]
    simp only [List.flatMap_cons, listElem, List.append_assoc]

/-- What `bencode_list` returns: `l`, each element behind its decimal rune
count and a colon, `e`. -/
theorem bencode_list_eq (args : List (List Byte)) :
    bencode_list args = ascii "l" ++ args.flatMap listElem ++ ascii "e" := by
  simp only [bencode_list, foldl_listElem]

theorem listElem_ascii (a : List Byte) (h : IsAscii a) : listElem a = canonical_string a := by
  simp only [listElem, canonical_string, RuneCountInString_ascii a h]

theorem flatMap_listElem_ascii (vs : List (List Byte)) (h : ∀ v ∈ vs, IsAscii v) :
    vs.flatMap listElem = vs.flatMap canonical_string := by
  induction vs with
  | nil => rfl
  | cons v vs ih =>
    simp only [List.flatMap_cons, listElem_ascii v (h v (List.mem_cons_self _ _)),
      ih (fun c hc => h c (List.mem_cons_of_mem _ hc))]

/-! ## Lemmas for non-ASCII strings -/

theorem encoderune_length_pos (r : Nat) : 1 ≤ (encoderune r).length := by
  unfold encoderune
  split_ifs <;> simp

theorem encoderune_nonascii_length (b : Byte) (hb : ¬ b.val < 0x80) :
    (encoderune b.val).length = 2 := by
  have hlt := b.isLt
  unfold encoderune
  split_ifs <;> first | omega | simp

theorem length_le_flatMap_encoderune (l : List Byte) :
    l.length ≤ (l.flatMap fun b => encoderune b.val).length := by
  induction l with
  | nil => simp
  | cons b l ih =>
    have := encoderune_length_pos b.val
    simp only [List.flatMap_cons, List.length_append, List.length_cons]
    omega

theorem length_lt_flatMap_encoderune (l : List Byte) (h : ¬ IsAscii l) :
    l.length < (l.flatMap fun b => encoderune b.val).length := by
  induction l with
  | nil => exact absurd (fun b hb => absurd hb (List.not_mem_nil b)) h
  | cons b l ih =>
    simp only [List.flatMap_cons, List.length_append, List.length_cons]
    by_cases hb : b.val < 0x80
    · have hl : ¬ IsAscii l := by
        intro hl
        apply h
        intro c hc
        rcases List.mem_cons.1 hc with rfl | hc
        · exact hb
        · exact hl c hc
      have := ih hl
      have := encoderune_length_pos b.val
      omega
    · have := encoderune_nonascii_length b hb
      have := length_le_flatMap_encoderune l
      omega

/-! ## Lemmas for sequences of calls -/

theorem call_eq (d : BencodedDict) (c : Call) :
    ∃ b, contribution c = some b ∧ d.call c = some ⟨d.strValue ++ b⟩ := by
  cases c with
  | add_int key value =>
    obtain ⟨k, hk⟩ := bencode_string_isSome key
    exact ⟨k ++ bencode_int value, by simp [contribution, hk],
      by simp [BencodedDict.call, BencodedDict.add_int, hk]⟩
  | add_string key value =>
    obtain ⟨k, hk⟩ := bencode_string_isSome key
    obtain ⟨v, hv⟩ := bencode_string_isSome value
    exact ⟨k ++ v, by simp [contribution, hk, hv],
      by simp [BencodedDict.call, BencodedDict.add_string, hk, hv]⟩
  | add_list key value =>
    obtain ⟨k, hk⟩ := bencode_string_isSome key
    exact ⟨k ++ bencode_list value, by simp [contribution, hk],
      by simp [BencodedDict.call, BencodedDict.add_list, hk]⟩
  | add_dict key value =>
    obtain ⟨k, hk⟩ := bencode_string_isSome key
    exact ⟨k ++ value.strValue, by simp [contribution, hk],
      by simp [BencodedDict.call, BencodedDict.add_dict, hk]⟩

theorem add_calls_cons (d : BencodedDict) (c : Call) (cs : List Call) :
    add_calls d (c :: cs) = (d.call c).bind fun d1 => add_calls d1 cs := by
  simp [add_calls, List.foldlM_cons]

theorem add_calls_eq (calls : List Call) :
    ∀ d : BencodedDict, ∃ bs : List (List Byte),
      List.Forall₂ (fun c b => contribution c = some b) calls bs ∧
      add_calls d calls = some ⟨d.strValue ++ bs.flatten⟩ := by
  induction calls with
  | nil => intro d; exact ⟨[], List.Forall₂.nil, by simp [add_calls]⟩
  | cons c cs ih =>
    intro d
    obtain ⟨b, hb, hcall⟩ := call_eq d c
    obtain ⟨bs, hbs, hrun⟩ := ih ⟨d.strValue ++ b⟩
    refine ⟨b :: bs, List.Forall₂.cons hb hbs, ?_⟩
    rw [add_calls_cons, hcall, Option.some_bind, hrun]
    simp

/-! ## The rune count of a concatenation -/

theorem first_cases (c : Nat) :
    first c = 0xF0 ∨ first c = 0xF1 ∨ first c = 0x02 ∨ first c = 0x13 ∨ first c = 0x03 ∨
      first c = 0x23 ∨ first c = 0x34 ∨ first c = 0x04 ∨ first c = 0x44 := by
  unfold first xx
  split_ifs <;> decide

theorem first_ne_as (c : Nat) (hc : ¬ c < 0x80) : first c ≠ 0xF0 := by
  unfold first xx
  split_ifs <;> decide

/-- For a leading byte of a multi-byte sequence the table gives a size of 2, 3
or 4 and an accept range that excludes every ASCII byte. -/
theorem first_facts (c : Nat) (hc : ¬ c < 0x80) (hx : first c ≠ xx) :
    (first c % 8 = 2 ∨ first c % 8 = 3 ∨ first c % 8 = 4) ∧
      0x80 ≤ (acceptRanges (first c / 16)).1 := by
  have h0 := first_ne_as c hc
  rcases first_cases c with h | h | h | h | h | h | h | h | h
  · exact absurd h h0
  · exact absurd h hx
  all_goals (rw [h]; decide)

theorem byteAt_append_left (s t : List Byte) (j : Nat) (hj : j < s.length) :
    byteAt (s ++ t) j = byteAt s j := by
  simp only [byteAt, List.getD_append s t 0 j hj]

theorem byteAt_append_right (s t : List Byte) (j : Nat) :
    byteAt (s ++ t) (s.length + j) = byteAt t j := by
  simp only [byteAt, List.getD_append_right s t 0 (s.length + j) (Nat.le_add_right _ _),
    Nat.add_sub_cancel_left]

theorem byteAt_head (t : List Byte) (ht : ∀ b, t.head? = some b → b.val < 0x80) :
    byteAt t 0 < 0x80 := by
  cases t with
  | nil => simp [byteAt]
  | cons b t => simpa [byteAt] using ht b rfl

theorem byteAt_append_at (s t : List Byte) (ht : ∀ b, t.head? = some b → b.val < 0x80)
    (j : Nat) (hj : j = s.length) : byteAt (s ++ t) j < 0x80 := by
  subst hj
  have := byteAt_append_right s t 0
  rw [Nat.add_zero] at this
  rw [this]
  exact byteAt_head t ht

/-- An iteration at an index inside the string stays inside the string. -/
theorem runeStep_le (s : List Byte) (i : Nat) (hi : i < s.length) :
    i + runeStep s i ≤ s.length := by
  simp only [runeStep]
  split_ifs <;> omega

/-- An iteration inside `s` is not changed by appending a string that is
empty or starts with an ASCII byte. -/
theorem runeStep_append_left (s t : List Byte) (i : Nat) (hi : i < s.length)
    (ht : ∀ b, t.head? = some b → b.val < 0x80) :
    runeStep (s ++ t) i = runeStep s i := by
  have h0 : byteAt (s ++ t) i = byteAt s i := byteAt_append_left s t i hi
  have hA1 : i + 1 < s.length → byteAt (s ++ t) (i + 1) = byteAt s (i + 1) :=
    byteAt_append_left s t (i + 1)
  have hA2 : i + 2 < s.length → byteAt (s ++ t) (i + 2) = byteAt s (i + 2) :=
    byteAt_append_left s t (i + 2)
  have hA3 : i + 3 < s.length → byteAt (s ++ t) (i + 3) = byteAt s (i + 3) :=
    byteAt_append_left s t (i + 3)
  have hB1 : i + 1 = s.length → byteAt (s ++ t) (i + 1) < 0x80 :=
    byteAt_append_at s t ht (i + 1)
  have hB2 : i + 2 = s.length → byteAt (s ++ t) (i + 2) < 0x80 :=
    byteAt_append_at s t ht (i + 2)
  have hB3 : i + 3 = s.length → byteAt (s ++ t) (i + 3) < 0x80 :=
    byteAt_append_at s t ht (i + 3)
  by_cases hc : byteAt s i < 0x80
  · simp [runeStep, h0, hc]
  · by_cases hx : first (byteAt s i) = xx
    · simp [runeStep, h0, hc, hx]
    · obtain ⟨hsz, hlo⟩ := first_facts _ hc hx
      simp only [runeStep, h0, List.length_append]
      generalize first (byteAt s i) % 8 = size at hsz ⊢
      generalize acceptRanges (first (byteAt s i) / 16) = acc at hlo ⊢
      generalize byteAt (s ++ t) (i + 1) = a1 at hA1 hB1 ⊢
      generalize byteAt (s ++ t) (i + 2) = a2 at hA2 hB2 ⊢
      generalize byteAt (s ++ t) (i + 3) = a3 at hA3 hB3 ⊢
      split_ifs <;> omega

/-- An iteration inside the second part of a concatenation is the iteration
on that part alone. -/
theorem runeStep_append_right (s t : List Byte) (j : Nat) :
    runeStep (s ++ t) (s.length + j) = runeStep t j := by
  have e1 := byteAt_append_right s t (j + 1)
  have e2 := byteAt_append_right s t (j + 2)
  have e3 := byteAt_append_right s t (j + 3)
  simp only [← Nat.add_assoc] at e1 e2 e3
  simp only [runeStep, byteAt_append_right, e1, e2, e3, List.length_append]
  split_ifs <;> omega

theorem runeCountLoop_shift (s t : List Byte) :
    ∀ fuel j n, runeCountLoop (s ++ t) fuel (s.length + j) n = runeCountLoop t fuel j n := by
  intro fuel
  induction fuel with
  | zero => intro j n; rfl
  | succ fuel ih =>
    intro j n
    simp only [runeCountLoop, List.length_append, Nat.add_lt_add_iff_left,
      runeStep_append_right, Nat.add_assoc, ih]

theorem runeCountLoop_acc (s : List Byte) :
    ∀ fuel i n, runeCountLoop s fuel i n = n + runeCountLoop s fuel i 0 := by
  intro fuel
  induction fuel with
  | zero => intro i n; simp [runeCountLoop]
  | succ fuel ih =>
    intro i n
    simp only [runeCountLoop]
    split_ifs
    · rw [ih _ (n + 1), ih _ (0 + 1)]
      omega
    · rfl

theorem runeCountLoop_append (s t : List Byte)
    (ht : ∀ b, t.head? = some b → b.val < 0x80) :
    ∀ fuel i n, i ≤ s.length → s.length + t.length - i ≤ fuel →
      runeCountLoop (s ++ t) fuel i n =
        runeCountLoop t t.length 0 (runeCountLoop s fuel i n) := by
  intro fuel
  induction fuel with
  | zero =>
    intro i n hi hf
    have h0 : t.length = 0 := by omega
    simp [runeCountLoop, h0]
  | succ fuel ih =>
    intro i n hi hf
    by_cases his : i < s.length
    · have hlt : i < (s ++ t).length := by rw [List.length_append]; omega
      have hstep := runeStep_le s i his
      have hpos := runeStep_pos s i
      simp only [runeCountLoop, his, hlt, if_true, runeStep_append_left s t i his ht]
      exact ih _ _ hstep (by omega)
    · have hi2 : i = s.length := by omega
      subst hi2
      have hsh : runeCountLoop (s ++ t) (fuel + 1) s.length n =
          runeCountLoop t (fuel + 1) 0 n := runeCountLoop_shift s t (fuel + 1) 0 n
      have hn : runeCountLoop s (fuel + 1) s.length n = n := by
        simp [runeCountLoop]
      rw [hsh, hn]
      exact runeCountLoop_fuel t _ _ 0 n (by omega) (by omega)

/-- The rune count is additive over a concatenation whose second part is
empty or starts with an ASCII byte. -/
theorem RuneCountInString_append (s t : List Byte)
    (ht : ∀ b, t.head? = some b → b.val < 0x80) :
    RuneCountInString (s ++ t) = RuneCountInString s + RuneCountInString t := by
  have h := runeCountLoop_append s t ht (s.length + t.length) 0 0 (Nat.zero_le _) (by omega)
  have hf := runeCountLoop_fuel s (s.length + t.length) s.length 0 0 (by omega) (by omega)
  rw [hf, runeCountLoop_acc t] at h
  simpa [RuneCountInString] using h

theorem RuneCountInString_pos (t : List Byte) (ht : t ≠ []) : 1 ≤ RuneCountInString t := by
  cases t with
  | nil => exact absurd rfl ht
  | cons b t =>
    simp only [RuneCountInString, List.length_cons, runeCountLoop, Nat.zero_lt_succ, if_true]
    rw [runeCountLoop_acc]
    omega

/-! ## `bencode_list` determines its argument -/

theorem listElem_eq (a : List Byte) :
    listElem a = formatNat (RuneCountInString a) ++ ascii ":" ++ a := by
  simp only [listElem, Itoa_natCast]

theorem listElem_head (a r : List Byte) (b : Byte) (h : (listElem a ++ r).head? = some b) :
    isDigit b := by
  rw [listElem_eq, List.append_assoc, List.append_assoc,
    List.head?_append_of_ne_nil _ (formatNat_ne_nil _)] at h
  exact formatNat_head_digit _ b h

/-- What follows an element in the output of `bencode_list` starts with an
ASCII byte: a digit of the next element or the final `e`. -/
theorem listTail_head_ascii (as : List (List Byte)) (b : Byte)
    (h : (as.flatMap listElem ++ ascii "e").head? = some b) : b.val < 0x80 := by
  cases as with
  | nil =>
    have hb : b = 101 := by
      have : (ascii "e").head? = some 101 := by decide
      simp only [List.flatMap_nil, List.nil_append, this, Option.some.injEq] at h
      exact h.symm
    subst hb
    decide
  | cons a as =>
    rw [List.flatMap_cons, List.append_assoc] at h
    have := (listElem_head a _ b h).2
    omega

theorem listTail_nil_ne_cons (a : List Byte) (as : List (List Byte)) :
    ascii "e" ≠ (a :: as).flatMap listElem ++ ascii "e" := by
  intro h
  have h1 : ((a :: as).flatMap listElem ++ ascii "e").head? = some 101 := by
    rw [← h]; decide
  rw [List.flatMap_cons, List.append_assoc] at h1
  exact absurd (listElem_head a _ 101 h1).2 (by decide)

/-- A string with the same rune count as one of its extensions by a part that
is empty or starts with an ASCII byte is that extension. -/
theorem extension_eq_nil (a t : List Byte) (ht : ∀ b, t.head? = some b → b.val < 0x80)
    (h : RuneCountInString (a ++ t) = RuneCountInString a) : t = [] := by
  by_contra hne
  have h1 := RuneCountInString_append a t ht
  have h2 := RuneCountInString_pos t hne
  omega

theorem listTail_injective : ∀ a b : List (List Byte),
    a.flatMap listElem ++ ascii "e" = b.flatMap listElem ++ ascii "e" → a = b := by
  intro a
  induction a with
  | nil =>
    intro b h
    cases b with
    | nil => rfl
    | cons b1 bs => exact absurd h (listTail_nil_ne_cons b1 bs)
  | cons a1 as ih =>
    intro b h
    cases b with
    | nil => exact absurd h.symm (listTail_nil_ne_cons a1 as)
    | cons b1 bs =>
      simp only [List.flatMap_cons, listElem_eq, List.append_assoc] at h
      have hL : ∀ (n : Nat) (r : List Byte),
          lengthPrefix (formatNat n ++ (ascii ":" ++ r)) = formatNat n := by
        intro n r
        rw [← List.append_assoc]
        exact lengthPrefix_digits _ _ (formatNat_digits _)
      have hpre := congrArg lengthPrefix h
      rw [hL, hL] at hpre
      have hrc : RuneCountInString a1 = RuneCountInString b1 := formatNat_injective hpre
      rw [hrc] at h
      have hrest := List.append_cancel_left (List.append_cancel_left h)
      rcases List.append_eq_append_iff.1 hrest with ⟨t, hb1, hRa⟩ | ⟨t, ha1, hRb⟩
      · have ht : ∀ c, t.head? = some c → c.val < 0x80 := by
          intro c hc
          cases t with
          | nil => simp at hc
          | cons c0 t0 =>
            apply listTail_head_ascii as c
            rw [hRa]
            simpa using hc
        have : t = [] := extension_eq_nil a1 t ht (by rw [← hb1, hrc])
        subst this
        simp only [List.append_nil, List.nil_append] at hb1 hRa
        rw [hb1, ih bs hRa]
      · have ht : ∀ c, t.head? = some c → c.val < 0x80 := by
          intro c hc
          cases t with
          | nil => simp at hc
          | cons c0 t0 =>
            apply listTail_head_ascii bs c
            rw [hRb]
            simpa using hc
        have : t = [] := extension_eq_nil b1 t ht (by rw [← ha1, hrc])
        subst this
        simp only [List.append_nil, List.nil_append] at ha1 hRb
        rw [ha1, ih bs hRb.symm]

theorem bencode_list_inj : Function.Injective bencode_list := by
  intro a b h
  rw [bencode_list_eq, bencode_list_eq, List.append_assoc, List.append_assoc] at h
  exact listTail_injective a b (List.append_cancel_left h)

/-! ## The claims, continued -/

/-- C11 (defect in the code): the text `bencode_int(n)` writes between the
marker `i` and the final `e` is a colon followed by the numeral of `n`, so it
is not a canonical decimal numeral for any `n`; for `n = -3` it is `:-3` and
for `n = 0` it is `:0`.  Only the part after the colon, `strconv.Itoa(n)`, is
the canonical numeral of `n`. -/
theorem bencode_int_body_not_numeral (n : Int) :
    intBody (bencode_int n) = ascii ":" ++ Itoa n ∧
    ¬ CanonicalNumeral (intBody (bencode_int n)) n ∧
    intBody (bencode_int (-3)) = ascii ":-3" ∧
    intBody (bencode_int 0) = ascii ":0" ∧
    CanonicalNumeral (Itoa n) n := by
  have hbody : intBody (bencode_int n) = ascii ":" ++ Itoa n := by
    have h1 : ascii "i:" = (105 : Byte) :: ascii ":" := by decide
    have h2 : ascii "e" = [(101 : Byte)] := by decide
    rw [bencode_int_eq, intBody, h1, h2]
    simp only [List.cons_append, List.drop_one, List.tail_cons, List.dropLast_concat]
  refine ⟨hbody, ?_, by decide, by decide, Itoa_canonical n⟩
  intro hcan
  rw [hbody] at hcan
  have hcolon : ascii ":" = [(58 : Byte)] := by decide
  have hd : numeralDigits (ascii ":" ++ Itoa n) = ascii ":" ++ Itoa n := by
    rw [hcolon]
    simp only [numeralDigits, List.singleton_append, List.head?_cons, Option.some.injEq]
    rw [if_neg (by decide)]
  have hdig := hcan.digits 58 (by rw [hd, hcolon]; simp)
  exact absurd hdig.2 (by decide)

/-- C12: for an ASCII key `k` and a list `vs` of ASCII strings, `add_list(k, vs)`
on an empty dictionary succeeds and `bencoded_dict_string` then returns `d`,
the length-prefixed key, `l`, each element of `vs` length-prefixed in order,
`e`, `e`. -/
theorem add_list_ascii (k : List Byte) (vs : List (List Byte)) (hk : IsAscii k)
    (hvs : ∀ v ∈ vs, IsAscii v) :
    (BencodedDict.empty.add_list k vs).map BencodedDict.bencoded_dict_string =
      some (ascii "d" ++ (Itoa k.length ++ ascii ":" ++ k) ++ ascii "l" ++
        (vs.flatMap fun v => Itoa v.length ++ ascii ":" ++ v) ++ ascii "e" ++ ascii "e") := by
  have hc : (fun v : List Byte => Itoa v.length ++ ascii ":" ++ v) = canonical_string := rfl
  rw [hc, BencodedDict.add_list, bencode_string_ascii k hk, bencode_list_eq,
    flatMap_listElem_ascii vs hvs]
  simp [BencodedDict.bencoded_dict_string, BencodedDict.empty, canonical_string]

/-- C12 at the key "spam" and the list ["a", "b"]: the result is
`d4:spaml1:a1:bee`. -/
theorem add_list_ascii_witness :
    IsAscii (ascii "spam") ∧ (∀ v ∈ [ascii "a", ascii "b"], IsAscii v) ∧
    (BencodedDict.empty.add_list (ascii "spam") [ascii "a", ascii "b"]).map
      BencodedDict.bencoded_dict_string = some (ascii "d4:spaml1:a1:bee") :=
  ⟨by decide, by decide,
    (add_list_ascii (ascii "spam") [ascii "a", ascii "b"] (by decide) (by decide)).trans
      (by decide)⟩

/-- C14: for every integer `n`, `bencode_int(n)` is `i:` followed by the
decimal numeral of `n` followed by `e`; `bencode_int(3)` is `i:3e` and
`bencode_int(123)` is `i:123e`. -/
theorem bencode_int_writes_colon (n : Int) :
    bencode_int n = ascii "i:" ++ Itoa n ++ ascii "e" ∧
    bencode_int 3 = ascii "i:3e" ∧ bencode_int 123 = ascii "i:123e" :=
  ⟨bencode_int_eq n, by decide, by decide⟩

/-- C15 (defect in the code): `bencode_list` does not encode its elements as
`bencode_string` does.  For the one-element list holding the two bytes
`C3 A9` ("é") it returns `l1:` `C3 A9` `e`, while `l`, `bencode_string` of the
element, `e` is `l1:` `C3 83` `e`; on the ASCII list ["spam", "eggs"] the two
agree. -/
theorem bencode_list_differs_from_bencode_string :
    bencode_list [[0xC3, 0xA9]] = ascii "l1:" ++ [0xC3, 0xA9] ++ ascii "e" ∧
    list_of_bencoded_strings [[0xC3, 0xA9]] = some (ascii "l1:" ++ [0xC3, 0x83] ++ ascii "e") ∧
    some (bencode_list [[0xC3, 0xA9]]) ≠ list_of_bencoded_strings [[0xC3, 0xA9]] ∧
    some (bencode_list [ascii "spam", ascii "eggs"]) =
      list_of_bencoded_strings [ascii "spam", ascii "eggs"] := by
  decide

/-- C16: `bencode_string(x)` is the canonical encoding (decimal byte length,
colon, the bytes verbatim) exactly when every byte of `x` is ASCII; in
general it is the decimal rune count, a colon, and for each of the first
rune-count bytes the UTF-8 encoding of the code point with that byte's
value. -/
theorem bencode_string_canonical_iff_ascii (x : List Byte) :
    (bencode_string x = some (canonical_string x) ↔ IsAscii x) ∧
    bencode_string x =
      some (Itoa (RuneCountInString x) ++ ascii ":" ++
        (x.take (RuneCountInString x)).flatMap fun b => encoderune b.val) := by
  refine ⟨⟨fun h => ?_, bencode_string_ascii x⟩, ?_⟩
  · by_contra hx
    have hpre := lengthPrefix_bencode_string x _ h
    rw [canonical_string, Itoa_natCast,
      lengthPrefix_digits _ _ (formatNat_digits _)] at hpre
    have hrc : RuneCountInString x = x.length := (formatNat_injective hpre).symm
    rw [bencode_string_eq, hrc, List.take_length, canonical_string, Itoa_natCast,
      Option.some.injEq] at h
    have hbody := List.append_cancel_left h
    have hlen := congrArg List.length hbody
    have := length_lt_flatMap_encoderune x hx
    omega
  · rw [bencode_string_eq, Itoa_natCast]

/-- C17: `add_*` only appends, in call order.  For every sequence of
`add_int` / `add_string` / `add_list` / `add_dict` calls on an empty
dictionary, every call succeeds and `bencoded_dict_string` returns `d`, the
concatenation in call order of the calls' contributions, `e`; each single
call `c` on any dictionary `d` leaves the old content of `d` in front and
appends the contribution of `c`; and `bencoded_dict_string` only reads the
content. -/
theorem add_calls_append_in_call_order (calls : List Call) (d : BencodedDict) (c : Call) :
    (∃ bs : List (List Byte),
      List.Forall₂ (fun c b => contribution c = some b) calls bs ∧
      (add_calls BencodedDict.empty calls).map BencodedDict.bencoded_dict_string =
        some (ascii "d" ++ bs.flatten ++ ascii "e")) ∧
    (∃ b, contribution c = some b ∧ d.call c = some ⟨d.strValue ++ b⟩) ∧
    d.bencoded_dict_string = ascii "d" ++ d.strValue ++ ascii "e" := by
  refine ⟨?_, call_eq d c, rfl⟩
  obtain ⟨bs, hbs, hrun⟩ := add_calls_eq calls BencodedDict.empty
  refine ⟨bs, hbs, ?_⟩
  rw [hrun]
  simp [BencodedDict.bencoded_dict_string, BencodedDict.empty]

/-- C18 (defect in the code): the serialization does not determine the
entries, even on ASCII input.  `add_dict("a", {})` followed by
`add_string("b", "c")` and `add_string("a", "b")` followed by
`add_dict("c", {})` are different sequences of entries, and both serialize to
`d1:a1:b1:ce`. -/
theorem dict_serialization_not_injective :
    (add_calls BencodedDict.empty
        [Call.add_dict (ascii "a") BencodedDict.empty,
          Call.add_string (ascii "b") (ascii "c")]).map
      BencodedDict.bencoded_dict_string = some (ascii "d1:a1:b1:ce") ∧
    (add_calls BencodedDict.empty
        [Call.add_string (ascii "a") (ascii "b"),
          Call.add_dict (ascii "c") BencodedDict.empty]).map
      BencodedDict.bencoded_dict_string = some (ascii "d1:a1:b1:ce") ∧
    [Call.add_dict (ascii "a") BencodedDict.empty, Call.add_string (ascii "b") (ascii "c")] ≠
      [Call.add_string (ascii "a") (ascii "b"), Call.add_dict (ascii "c") BencodedDict.empty] := by
  refine ⟨by decide, by decide, ?_⟩
  intro h
  cases h

/-- C19: `bencode_list` is injective on all lists of byte strings, so some
decoder recovers every list from its encoding. -/
theorem bencode_list_round_trip :
    Function.Injective bencode_list ∧
    ∃ decode : List Byte → List (List Byte), ∀ a, decode (bencode_list a) = a :=
  ⟨bencode_list_inj, bencode_list_inj.hasLeftInverse⟩

end Bencode
